import Mathlib

/-!
# CV-Analyser: verification of the skill-gap engine

A shallow embedding of the two skill-extraction / gap-analysis variants of the
CV-Analyser repository (`api_main.py`, the lexical variant, and
`api_ml_implementation.py`, the semantic variant), together with theorems
settling the specification claims about them.

Modelling conventions:
* Python text is modelled as `String` / `List Char`; `str.lower` and the
  `re` character classes are modelled over ASCII (all taxonomy data and job
  texts in the claims are ASCII).
* Python `float` arithmetic is modelled over `ℚ`; the constants involved
  (`0.55`, `0.08`, `0.25`, `0.12`, `0.1`, `0.78`, `0.35`) are exact decimal
  literals and `min`/comparison behave identically.
* `round(x, 2)` is modelled by `round2` (ties rounded up; no claim depends on
  a tie).
* The embedding-model call of the semantic variant is an opaque parameter
  `sim : String → String → ℚ` giving the cosine similarity of a text chunk
  and a skill-variant string (an embedding model assigns every text a fixed
  vector, so the similarity is a function of the two texts).
* Python regexes are modelled by explicit scanning functions with the same
  semantics (ordered alternation, non-overlapping left-to-right scan,
  `(?<![a-z0-9])`/`(?![a-z0-9])` lookarounds, `.` not matching a newline).
-/

namespace CVAnalyser

/-! ## Character classes (ASCII model of Python `str.lower` and `re` classes) -/

/-- Python `\s` over ASCII: space, tab, newline, carriage return,
vertical tab, form feed. -/
def isWsChar (c : Char) : Bool :=
  c = ' ' || c = '\t' || c = '\n' || c = '\r' || c = '\x0b' || c = '\x0c'

/-- The `[a-z0-9]` class used by the word-boundary lookarounds
(the scanned text is already lower-cased). -/
def isAlnumLower (c : Char) : Bool :=
  ('a' ≤ c && c ≤ 'z') || ('0' ≤ c && c ≤ '9')

/-- The character class `[a-z0-9+\-#/\.\s]` kept by the lexical
`normalize_text`. -/
def keepChar (c : Char) : Bool :=
  isAlnumLower c || c = '+' || c = '-' || c = '#' || c = '/' || c = '.' || isWsChar c

/-! ## Whitespace collapsing and stripping (`re.sub(r"\s+", " ", ·)` and `.strip()`) -/

/-- Auxiliary scan for `collapseWs`; the flag records whether the previous
character belonged to the current whitespace run. -/
def collapseWsAux : Bool → List Char → List Char
  | _, [] => []
  | inRun, c :: rest =>
    if isWsChar c then
      if inRun then collapseWsAux true rest
      else ' ' :: collapseWsAux true rest
    else c :: collapseWsAux false rest

/-- Replace every maximal whitespace run by a single space:
`re.sub(r"\s+", " ", text)`. -/
def collapseWs (l : List Char) : List Char :=
  collapseWsAux false l

/-- Python `str.strip()` (whitespace from both ends). -/
def stripWs (l : List Char) : List Char :=
  ((l.dropWhile isWsChar).reverse.dropWhile isWsChar).reverse

/-! ## The word-boundary alias scanner

Model of `re.finditer` for the patterns built by `compile_patterns`:
`(?<![a-z0-9])(alias₁|alias₂|…)(?![a-z0-9])` where every alias is an escaped
literal (lower-cased).  Python alternation is ordered: at each position the
first alternative whose literal matches and whose lookahead succeeds wins;
after a non-empty match the scan resumes at its end, after an empty match it
advances one character. -/

/-- `(?<![a-z0-9])`: the character before the match position (if any) is not
a lower-case letter or digit. -/
def lookbehindOk : Option Char → Bool
  | none => true
  | some c => !(isAlnumLower c)

/-- `(?![a-z0-9])`: the character at the given suffix (if any) is not a
lower-case letter or digit. -/
def lookaheadOk : List Char → Bool
  | [] => true
  | c :: _ => !(isAlnumLower c)

/-- Try the alternatives in order at the current position; the first literal
that is a prefix of the remaining text and passes the lookahead wins. -/
def tryAlts (alts : List (List Char)) (t : List Char) : Option (List Char) :=
  alts.find? fun a => a.isPrefixOf t && lookaheadOk (t.drop a.length)

/-- One scan step; `rec` is the continuation for the rest of the text. -/
def scanHitsStep (alts : List (List Char))
    (rec : Option Char → List Char → List (List Char))
    (prev : Option Char) (t : List Char) : List (List Char) :=
  match (if lookbehindOk prev then tryAlts alts t else none) with
  | some a =>
    match a, t with
    | [], [] => [[]]
    | [], c :: rest => [] :: rec (some c) rest
    | _ :: _, _ => a :: rec (some (a.getLastD ' ')) (t.drop a.length)
  | none =>
    match t with
    | [] => []
    | c :: rest => rec (some c) rest

/-- Fuelled scan of the whole text; `fuel = t.length + 1` always suffices
(every step consumes at least one character or ends the scan). -/
def scanHitsF (alts : List (List Char)) : Nat → Option Char → List Char → List (List Char)
  | 0, _, _ => []
  | fuel + 1, prev, t => scanHitsStep alts (scanHitsF alts fuel) prev t

/-- All matches of the alias alternation over the text, in scan order
(`m.group(1)` of each match of `pat.finditer(t)`). -/
def scanHits (alts : List (List Char)) (t : List Char) : List (List Char) :=
  scanHitsF alts (t.length + 1) none t

/-! ## The requirement-proximity regex

Model of `re.search(rf"{rw}.{{0,110}}{name}|{name}.{{0,110}}{rw}", text)`:
does the text contain the first string, then at most 110 characters none of
which is a newline (`.` does not match `\n`), then the second string — in
either order? -/

/-- The literal `s` occurs in `t` starting at index `i`. -/
def occursAt (t s : List Char) (i : Nat) : Bool :=
  s.isPrefixOf (t.drop i)

/-- The `len` characters of `t` starting at index `i` can all be matched by
`.` (i.e. none is a newline). -/
def gapOk (t : List Char) (i len : Nat) : Bool :=
  ((t.drop i).take len).all fun c => c ≠ '\n'

/-- `a`, then a `.`-matchable gap of at most 110 characters, then `b`,
somewhere in `t`. -/
def proxOneWay (a b t : List Char) : Bool :=
  (List.range (t.length + 1)).any fun i =>
    occursAt t a i &&
      (List.range 111).any fun g =>
        gapOk t (i + a.length) g && occursAt t b (i + a.length + g)

/-- The two-branch proximity regex: `a` within 110 characters before or
after `b` in `t`. -/
def proxMatch (a b t : List Char) : Bool :=
  proxOneWay a b t || proxOneWay b a t

/-! ## Small generic helpers shared by both variants -/

/-- Deduplication keeping the *first* occurrence of each element, the order
in which Python's `dict` / `set`-insertion first sees keys. -/
def firstDedup {α : Type} [DecidableEq α] : List α → List α
  | [] => []
  | x :: xs => x :: (firstDedup xs).filter (· ≠ x)

theorem mem_firstDedup {α : Type} [DecidableEq α] {a : α} :
    ∀ {l : List α}, a ∈ firstDedup l ↔ a ∈ l
  | [] => Iff.rfl
  | x :: xs => by
    simp only [firstDedup, List.mem_cons, List.mem_filter]
    by_cases hax : a = x
    · simp [hax]
    · simp [hax, mem_firstDedup (l := xs)]

theorem nodup_firstDedup {α : Type} [DecidableEq α] :
    ∀ l : List α, (firstDedup l).Nodup
  | [] => List.nodup_nil
  | x :: xs => by
    simp only [firstDedup]
    refine List.Nodup.cons ?_ ((nodup_firstDedup xs).filter _)
    intro hx
    have := (List.mem_filter.mp hx).2
    simp at this

/-- Python `sorted` on a list of strings (code-point lexicographic order,
which is `String`'s linear order). -/
def sortStrs (l : List String) : List String :=
  List.insertionSort (· ≤ ·) l

/-- The stable descending sort `ranked_missing.sort(key=lambda x: x[1],
reverse=True)`: sort by the score component, larger first, equal scores
keeping their original order (insertion sort with this relation is stable,
like Python's sort). -/
def sortRankedDesc (l : List (String × ℚ)) : List (String × ℚ) :=
  List.insertionSort (fun p q => q.2 ≤ p.2) l

/-- `sorted(set(rk) & set(jk))` over the key lists of two extraction runs
(the key lists are duplicate-free). -/
def matchedIdsOf (rk jk : List String) : List String :=
  sortStrs (rk.filter fun k => decide (k ∈ jk))

/-- `sorted(set(jk) - set(rk))`. -/
def missingIdsOf (rk jk : List String) : List String :=
  sortStrs (jk.filter fun k => decide (k ∉ rk))

/-- Model of Python `round(x, 2)` over `ℚ` (ties rounded upward; the claims
never hit a tie). -/
def round2 (q : ℚ) : ℚ :=
  (⌊q * 100 + 1 / 2⌋ : ℚ) / 100

/-! ## Data model -/

/-- One taxonomy record (`skills_taxonomy.json` entry). -/
structure Skill where
  id : String
  canonical_name : String
  aliases : List String
  roles : List String
  category : String
  level : Option String
deriving DecidableEq

/-- The `SkillFound` dataclass common to both variants. -/
structure SkillFound where
  skill_id : String
  found_as : List String
  confidence : ℚ
deriving DecidableEq

/-- `SKILL_BY_ID[sid]` — a Python dict built by one pass over the list, so a
duplicated id keeps the *last* record. -/
def lookupSkill (tax : List Skill) (sid : String) : Option Skill :=
  tax.reverse.find? fun s => decide (s.id = sid)

/-- The distinct skill records the per-id dictionaries (`PATTERNS`,
`SKILL_BY_ID`) effectively iterate over: ids in first-occurrence order, each
resolved through `SKILL_BY_ID` (last record wins). -/
def uniqueSkills (tax : List Skill) : List Skill :=
  (firstDedup (tax.map (·.id))).filterMap fun i => lookupSkill tax i

/-- The requirement keywords of both `importance_score` variants. -/
def requiredWords : List String :=
  ["required", "must", "essential", "mandatory", "need to", "strongly preferred"]

/-- `priority` — identical in both variants. -/
def priority (imp : ℚ) : String :=
  if imp ≥ 0.78 then "High" else if imp ≥ 0.55 then "Medium" else "Low"

/-- The roadmap templates of `suggested_path` — identical in both variants. -/
def roadmapTemplates : List (String × List String) :=
  [("Cloud (AWS)", ["Cloud basics", "IAM permissions", "Networking basics (VPC)",
      "Deploy a small API", "Monitoring + cost basics"]),
   ("Cloud (Azure)", ["Cloud basics", "Identity (Entra ID)", "Networking basics (VNet)",
      "Deploy a Function/App", "Monitoring + cost basics"]),
   ("DevOps Fundamentals", ["Git workflow", "Containers", "CI pipeline",
      "CD pipeline", "Observability basics"]),
   ("Auth & Security", ["Threat basics", "OAuth/JWT", "Secure storage",
      "OWASP checks", "Audit logging"]),
   ("Databases", ["Schema design", "Indexes", "Transactions",
      "Query tuning", "Backup/restore basics"]),
   ("APIs & Integration", ["REST design", "Validation", "Auth",
      "Docs (OpenAPI)", "Performance + caching"]),
   ("Frontend Concepts", ["Core fundamentals", "Component patterns", "State management",
      "Testing", "Performance + a11y"]),
   ("Architecture & Patterns", ["Baseline design", "Reliability patterns", "Scaling",
      "Tradeoffs", "Hands-on refactor"])]

/-- `suggested_path` (shared shape; the taxonomy is passed explicitly). -/
def suggested_path (tax : List Skill) (sid : String) : List String :=
  let cat := ((lookupSkill tax sid).map (·.category)).getD ""
  (((roadmapTemplates.find? fun p => decide (p.1 = cat)).map (·.2)).getD
    ["Learn fundamentals", "Build a small project using it", "Add a portfolio example"])

/-- Matched-side output record (`SkillOut` with the matched-side fields). -/
structure MatchedOut where
  skill_id : String
  skill : String
  category : String
  found_as : List String
  confidence : ℚ
deriving DecidableEq

/-- Missing-side output record (`SkillOut` with the missing-side fields). -/
structure MissingOut where
  skill_id : String
  skill : String
  category : String
  importance : ℚ
  priority : String
  reason : String
  suggested_path : List String
deriving DecidableEq

/-- `AnalyzeResponse`. -/
structure AnalyzeResult where
  matched : List MatchedOut
  missing : List MissingOut
  summary_target_role : String
  summary_matched_count : Nat
  summary_missing_count : Nat
deriving DecidableEq

/-- The response-assembly shared verbatim by the two `analyze` bodies:
matched records from the sorted common ids (résumé-side evidence), missing
records from the importance-ranked `(sid, imp)` list (rounded importance,
priority on the unrounded value, per-category roadmap). -/
def gapAnalyze (tax : List Skill) (rsk : List (String × SkillFound))
    (jsk : List (String × SkillFound)) (ranked : List (String × ℚ))
    (reason role : String) : AnalyzeResult :=
  let matched_ids := matchedIdsOf (rsk.map Prod.fst) (jsk.map Prod.fst)
  let matched := matched_ids.map fun sid =>
    let m := (lookupSkill tax sid).getD ⟨sid, "", [], [], "", none⟩
    let sf := (((rsk.find? fun p => decide (p.1 = sid)).map Prod.snd).getD ⟨sid, [], 0⟩)
    MatchedOut.mk sid m.canonical_name m.category sf.found_as (round2 sf.confidence)
  let missing := ranked.map fun p =>
    let m := (lookupSkill tax p.1).getD ⟨p.1, "", [], [], "", none⟩
    MissingOut.mk p.1 m.canonical_name m.category (round2 p.2) (priority p.2)
      reason (suggested_path tax p.1)
  ⟨matched, missing, role, matched.length, missing.length⟩

/-! ## The lexical variant (`api_main.py`) -/

namespace Api

/-- `normalize_text` (lexical): lower-case, replace characters outside
`[a-z0-9+\-#/\.\s]` by a space, collapse whitespace, strip. -/
def normalizeL (l : List Char) : List Char :=
  stripWs (collapseWs ((l.map Char.toLower).map fun c => if keepChar c then c else ' '))

/-- `normalize_text` on `String`s. -/
def normalize_text (s : String) : String :=
  ⟨normalizeL s.data⟩

/-- The alternation literals of a skill's compiled pattern:
`re.escape(a.lower())` for each alias, in declaration order. -/
def lexAlts (s : Skill) : List (List Char) :=
  s.aliases.map fun a => a.data.map Char.toLower

/-- `extract_skills(text, role)` of the lexical variant: for every skill
relevant to the role, the distinct matched alias strings (sorted) and the
confidence `min(1.0, 0.55 + 0.08 * distinct_hits)`. -/
def extract_skills (tax : List Skill) (text : String) (role : String) :
    List (String × SkillFound) :=
  let t := normalizeL text.data
  (uniqueSkills tax).filterMap fun s =>
    if role ∈ s.roles then
      let hits := firstDedup (scanHits (lexAlts s) t)
      if hits.isEmpty then none
      else some (s.id,
        ⟨s.id, sortStrs (hits.map fun h => ⟨h⟩), min 1 (0.55 + 0.08 * (hits.length : ℚ))⟩)
    else none

/-- `re.findall(rf"(?<![a-z0-9]){re.escape(a_norm)}(?![a-z0-9])", jt)`
match count (non-overlapping, left to right). -/
def countHits (a : List Char) (t : List Char) : Nat :=
  (scanHits [a] t).length

/-- `importance_score(job_text, skill_id)` of the lexical variant.  The
`for rw in required_words: … break` loop adds `0.25` exactly once, iff some
keyword is proximity-matched against the *canonical name* in the
*normalized* job text, so it is modelled by `List.any`. -/
def importance_score (tax : List Skill) (job_text : String) (sid : String) : ℚ :=
  match lookupSkill tax sid with
  | none => 0
  | some meta =>
    let jt := normalizeL job_text.data
    let count := (meta.aliases.map fun a => countHits (normalizeL a.data) jt).sum
    let base := min 1 (0.25 + 0.12 * (count : ℚ))
    let canonical := normalizeL meta.canonical_name.data
    let base :=
      if requiredWords.any (fun rw => proxMatch rw.data canonical jt) then
        min 1 (base + 0.25)
      else base
    if meta.level = some "core" then min 1 (base + 0.1) else base

/-- The `(sid, importance)` list of missing skills after
`ranked_missing.sort(key=lambda x: x[1], reverse=True)`. -/
def rankedMissing (tax : List Skill) (resume_text job_text role : String) :
    List (String × ℚ) :=
  let rsk := extract_skills tax resume_text role
  let jsk := extract_skills tax job_text role
  sortRankedDesc ((missingIdsOf (rsk.map Prod.fst) (jsk.map Prod.fst)).map fun sid =>
    (sid, importance_score tax job_text sid))

/-- The `/analyze` handler body (request validation and HTTP wiring are the
external collaborator; the core is called with the three fields). -/
def analyze (tax : List Skill) (resume_text job_text role : String) : AnalyzeResult :=
  gapAnalyze tax (extract_skills tax resume_text role) (extract_skills tax job_text role)
    (rankedMissing tax resume_text job_text role)
    "Ranked by frequency + 'required/must' proximity in the job text (heuristic)."
    role

end Api

/-! ## The semantic variant (`api_ml_implementation.py`) -/

namespace Ml

/-- `normalize_text` (semantic): collapse whitespace and strip, case
preserved. -/
def normalize_text (s : String) : String :=
  ⟨stripWs (collapseWs s.data)⟩

/-- The raw sentence split `re.split(r"(?<=[.!?])\s+", text)`: a split
happens at each whitespace run immediately preceded by `.`, `!` or `?`, the
run being consumed greedily (`skipping` marks being inside such a run). -/
def rawChunksAux : Bool → List Char → List Char → List (List Char)
  | _, [], acc => [acc.reverse]
  | skipping, c :: rest, acc =>
    if skipping && isWsChar c then
      rawChunksAux true rest acc
    else if isWsChar c && (match acc.head? with
        | some p => p = '.' || p = '!' || p = '?'
        | none => false) then
      acc.reverse :: rawChunksAux true rest []
    else
      rawChunksAux false rest (c :: acc)

/-- `chunk_text`: split into sentence-like chunks, strip each, keep those of
length `> 5`. -/
def chunk_text (s : String) : List String :=
  (((rawChunksAux false s.data []).map stripWs).filter fun c => decide (5 < c.length)).map
    fun c => (⟨c⟩ : String)

/-- The `(skill_id, variant_text)` list `skill_variant_map`: for every
taxonomy record in order, its canonical name then its aliases. -/
def variantMap (tax : List Skill) : List (String × String) :=
  tax.flatMap fun s => (s.id, s.canonical_name) :: s.aliases.map fun a => (s.id, a)

/-- `torch.max(scores, dim=0)` for one variant column: the maximum cosine
similarity of the variant against all chunks (the chunk list is non-empty
on every path that uses this). -/
def bestScore (sim : String → String → ℚ) (chunks : List String) (v : String) : ℚ :=
  match chunks with
  | [] => 0
  | c :: cs => cs.foldl (fun m ch => max m (sim ch v)) (sim c v)

/-- The surviving `(skill_id, variant)` pairs: best score at least the
threshold (`score < ML_SIMILARITY_THRESHOLD → continue`) and the skill
tagged with the requested role. -/
def survivors (tax : List Skill) (sim : String → String → ℚ) (thr : ℚ)
    (chunks : List String) (role : String) : List (String × String) :=
  (variantMap tax).filter fun p =>
    decide (thr ≤ bestScore sim chunks p.2) &&
      (match lookupSkill tax p.1 with
       | some m => decide (role ∈ m.roles)
       | none => false)

/-- `max(…)` over a Python list (the lists it is applied to are non-empty;
`0` is a don't-care value for the empty case). -/
def listMax0 : List ℚ → ℚ
  | [] => 0
  | x :: xs => xs.foldl max x

/-- The `SkillFound` record aggregated for one skill id out of the
surviving variants (`best_conf` / sorted distinct variant texts). -/
def groupFound (sim : String → String → ℚ) (chunks : List String)
    (surv : List (String × String)) (sid : String) : SkillFound :=
  let ms := surv.filter fun p => decide (p.1 = sid)
  ⟨sid, sortStrs (firstDedup (ms.map Prod.snd)),
    min 1 (listMax0 (ms.map fun p => bestScore sim chunks p.2))⟩

/-- `extract_skills(text, role)` of the semantic variant, parameterised by
the opaque similarity oracle `sim` and the configured threshold. -/
def extract_skills (tax : List Skill) (sim : String → String → ℚ) (thr : ℚ)
    (text : String) (role : String) : List (String × SkillFound) :=
  let chunks := chunk_text (normalize_text text)
  if chunks.isEmpty then []
  else
    let surv := survivors tax sim thr chunks role
    (firstDedup (surv.map Prod.fst)).map fun sid =>
      (sid, groupFound sim chunks surv sid)

/-- `importance_score(job_text, skill_id, base_confidence)` of the semantic
variant.  The nested `for name … for rw … break`/`break` loops set
`boost = 0.25` exactly once, iff some (name, keyword) pair proximity-matches
in the lower-cased job text, so they are modelled by `List.any`. -/
def importance_score (tax : List Skill) (job_text : String) (sid : String)
    (base_confidence : ℚ) : ℚ :=
  match lookupSkill tax sid with
  | none => 0
  | some meta =>
    let names := meta.canonical_name :: meta.aliases
    let jt := job_text.data.map Char.toLower
    let boost : ℚ :=
      if names.any (fun n =>
          requiredWords.any fun rw => proxMatch rw.data (n.data.map Char.toLower) jt) then
        0.25
      else 0
    let final := min 1 (base_confidence + boost)
    if meta.level = some "core" then min 1 (final + 0.1) else final

/-- The sorted `(sid, importance)` list of the semantic `analyze`
(`base_conf = job_sk[sid].confidence` is passed through). -/
def rankedMissing (tax : List Skill) (sim : String → String → ℚ) (thr : ℚ)
    (resume_text job_text role : String) : List (String × ℚ) :=
  let rsk := extract_skills tax sim thr resume_text role
  let jsk := extract_skills tax sim thr job_text role
  sortRankedDesc ((missingIdsOf (rsk.map Prod.fst) (jsk.map Prod.fst)).map fun sid =>
    (sid, importance_score tax job_text sid
      (((jsk.find? fun p => decide (p.1 = sid)).map fun p => p.2.confidence).getD 0)))

/-- The semantic `/analyze` handler body. -/
def analyze (tax : List Skill) (sim : String → String → ℚ) (thr : ℚ)
    (resume_text job_text role : String) : AnalyzeResult :=
  gapAnalyze tax (extract_skills tax sim thr resume_text role)
    (extract_skills tax sim thr job_text role)
    (rankedMissing tax sim thr resume_text job_text role)
    "Analyzed via ML semantic similarity + requirement context."
    role

end Ml

/-! ## General lemmas about the embedding -/

/-- Every string the scanner reports is one of the alternation literals. -/
theorem scanHitsF_mem_alts {alts : List (List Char)} :
    ∀ {fuel : Nat} {prev : Option Char} {t h : List Char},
      h ∈ scanHitsF alts fuel prev t → h ∈ alts := by
  intro fuel
  induction fuel with
  | zero => intro prev t h hh; simp [scanHitsF] at hh
  | succ n ih =>
    intro prev t h hh
    have hh : h ∈ scanHitsStep alts (scanHitsF alts n) prev t := hh
    unfold scanHitsStep at hh
    rcases hfind : (if lookbehindOk prev then tryAlts alts t else none) with _ | a <;>
      rw [hfind] at hh
    · match t, hh with
      | c :: rest, hh => exact ih hh
    · have ha : a ∈ alts := by
        rcases Bool.eq_false_or_eq_true (lookbehindOk prev) with hlb | hlb
        · rw [hlb] at hfind; simp only [if_true] at hfind
          exact List.mem_of_find?_eq_some hfind
        · rw [hlb] at hfind; simp at hfind
      match a, t, hh with
      | [], [], hh =>
        simp only [List.mem_singleton] at hh; exact hh ▸ ha
      | [], c :: rest, hh =>
        rcases List.mem_cons.mp hh with h1 | h1
        · exact h1 ▸ ha
        · exact ih h1
      | x :: xs, t, hh =>
        rcases List.mem_cons.mp hh with h1 | h1
        · exact h1 ▸ ha
        · exact ih h1

theorem scanHits_mem_alts {alts : List (List Char)} {t h : List Char}
    (hh : h ∈ scanHits alts t) : h ∈ alts :=
  scanHitsF_mem_alts hh

/-- With non-empty alternation literals, the empty text has no matches. -/
theorem scanHits_nil (alts : List (List Char)) (h : ∀ a ∈ alts, a ≠ []) :
    scanHits alts [] = [] := by
  have hfind : tryAlts alts [] = none := by
    apply List.find?_eq_none.mpr
    intro a ha
    have hpf : a.isPrefixOf ([] : List Char) = false := by
      cases a with
      | nil => exact absurd rfl (h [] ha)
      | cons x xs => rfl
    simp [hpf]
  show scanHitsStep alts (scanHitsF alts 0) none [] = []
  unfold scanHitsStep
  rw [if_pos (show lookbehindOk none = true from rfl), hfind]

theorem mem_sortStrs {a : String} {l : List String} : a ∈ sortStrs l ↔ a ∈ l :=
  (List.perm_insertionSort _ l).mem_iff

theorem mem_sortRankedDesc {a : String × ℚ} {l : List (String × ℚ)} :
    a ∈ sortRankedDesc l ↔ a ∈ l :=
  (List.perm_insertionSort _ l).mem_iff

theorem sortStrs_nodup {l : List String} (h : l.Nodup) : (sortStrs l).Nodup :=
  ((List.perm_insertionSort _ l).nodup_iff).mpr h

theorem sortStrs_sorted (l : List String) : (sortStrs l).Sorted (· ≤ ·) :=
  List.sorted_insertionSort _ l

/-- A sorted duplicate-free string list is strictly sorted. -/
theorem sortStrs_sorted_lt {l : List String} (h : l.Nodup) :
    (sortStrs l).Pairwise (· < ·) := by
  have hs := (sortStrs_sorted l).and (sortStrs_nodup h)
  exact hs.imp fun hab => lt_of_le_of_ne hab.1 hab.2

theorem mem_missingIdsOf {k : String} {rk jk : List String} :
    k ∈ missingIdsOf rk jk ↔ k ∈ jk ∧ k ∉ rk := by
  simp [missingIdsOf, mem_sortStrs, List.mem_filter]

theorem mem_matchedIdsOf {k : String} {rk jk : List String} :
    k ∈ matchedIdsOf rk jk ↔ k ∈ rk ∧ k ∈ jk := by
  simp [matchedIdsOf, mem_sortStrs, List.mem_filter]

theorem missingIdsOf_pairwise_lt {rk jk : List String} (h : jk.Nodup) :
    (missingIdsOf rk jk).Pairwise (· < ·) :=
  sortStrs_sorted_lt (h.filter _)

/-- Members of `uniqueSkills` are taxonomy records. -/
theorem mem_of_mem_uniqueSkills {tax : List Skill} {s : Skill}
    (h : s ∈ uniqueSkills tax) : s ∈ tax := by
  rcases List.mem_filterMap.mp h with ⟨i, _, hfind⟩
  exact List.mem_reverse.mp (List.mem_of_find?_eq_some hfind)

/-- A successful `SKILL_BY_ID` lookup returns a record with the requested
id. -/
theorem lookupSkill_id {tax : List Skill} {sid : String} {s : Skill}
    (h : lookupSkill tax sid = some s) : s.id = sid := by
  have h' : tax.reverse.find? (fun x => decide (x.id = sid)) = some s := h
  have hp := List.find?_some h'
  exact of_decide_eq_true hp

/-- Every id occurring in the taxonomy has a successful lookup. -/
theorem lookupSkill_isSome {tax : List Skill} {i : String}
    (h : i ∈ tax.map (·.id)) : ∃ s, lookupSkill tax i = some s ∧ s.id = i := by
  rcases List.mem_map.mp h with ⟨s, hs, hid⟩
  have : ∃ a ∈ tax.reverse, decide (a.id = i) = true :=
    ⟨s, List.mem_reverse.mpr hs, decide_eq_true hid⟩
  rcases List.find?_isSome.mpr this with hsome
  rcases hfind : List.find? (fun a => decide (a.id = i)) tax.reverse with _ | a
  · rw [hfind] at hsome; simp at hsome
  · have hp := List.find?_some hfind
    exact ⟨a, hfind, of_decide_eq_true hp⟩

/-- The ids of `uniqueSkills` are exactly the first-occurrence-deduplicated
taxonomy ids (in particular they are duplicate-free). -/
theorem uniqueSkills_map_id (tax : List Skill) :
    (uniqueSkills tax).map (·.id) = firstDedup (tax.map (·.id)) := by
  unfold uniqueSkills
  have hsub : ∀ i ∈ firstDedup (tax.map (·.id)), i ∈ tax.map (·.id) :=
    fun i hi => mem_firstDedup.mp hi
  generalize firstDedup (tax.map (·.id)) = l at hsub ⊢
  induction l with
  | nil => simp
  | cons i l ih =>
    rcases lookupSkill_isSome (hsub i (List.mem_cons_self _ _)) with ⟨s, hfind, hid⟩
    simp only [List.filterMap_cons, hfind, List.map_cons, hid]
    exact congrArg (i :: ·) (ih fun j hj => hsub j (List.mem_cons_of_mem _ hj))

theorem uniqueSkills_ids_nodup (tax : List Skill) :
    ((uniqueSkills tax).map (·.id)).Nodup := by
  rw [uniqueSkills_map_id]; exact nodup_firstDedup _

/-- Keys of a keyed `filterMap` are a sub-collection of the source keys. -/
theorem filterMap_keys_sublist (f : Skill → Option (String × SkillFound))
    (hf : ∀ s p, f s = some p → p.1 = s.id) :
    ∀ l : List Skill, ((l.filterMap f).map Prod.fst).Sublist (l.map (·.id))
  | [] => List.Sublist.refl _
  | s :: l => by
    rcases hfs : f s with _ | p
    · simp only [List.filterMap_cons, hfs, List.map_cons]
      exact (filterMap_keys_sublist f hf l).cons _
    · simp only [List.filterMap_cons, hfs, List.map_cons, hf s p hfs]
      exact (filterMap_keys_sublist f hf l).cons₂ _

/-- The lexical extraction result has duplicate-free keys. -/
theorem api_keys_nodup (tax : List Skill) (text role : String) :
    ((Api.extract_skills tax text role).map Prod.fst).Nodup := by
  refine List.Sublist.nodup ?_ (uniqueSkills_ids_nodup tax)
  refine filterMap_keys_sublist _ ?_ _
  intro s p hfs
  simp only at hfs
  split at hfs
  · split at hfs
    · exact absurd hfs (by simp)
    · exact congrArg Prod.fst (Option.some.inj hfs) ▸ rfl
  · exact absurd hfs (by simp)

/-- Projecting the keys back out of a keyed map is the identity. -/
theorem map_fst_keyed {β : Type} (g : String → β) :
    ∀ l : List String, ((l.map fun sid => (sid, g sid)).map Prod.fst) = l
  | [] => rfl
  | x :: xs => congrArg (x :: ·) (map_fst_keyed g xs)

/-- The semantic extraction result has duplicate-free keys. -/
theorem ml_keys_nodup (tax : List Skill) (sim : String → String → ℚ) (thr : ℚ)
    (text role : String) :
    ((Ml.extract_skills tax sim thr text role).map Prod.fst).Nodup := by
  unfold Ml.extract_skills
  by_cases hc : (Ml.chunk_text (Ml.normalize_text text)).isEmpty
  · simp [hc]
  · simp only [hc, Bool.false_eq_true, if_false]
    rw [map_fst_keyed]
    exact nodup_firstDedup _

/-- `round2` is monotone (so the reported rounded importances keep the
descending order of the computed ones). -/
theorem round2_mono {p q : ℚ} (h : p ≤ q) : round2 p ≤ round2 q := by
  unfold round2
  have h1 : p * 100 + 1 / 2 ≤ q * 100 + 1 / 2 := by
    have := mul_le_mul_of_nonneg_right h (by norm_num : (0 : ℚ) ≤ 100)
    linarith
  have h2 := Int.floor_le_floor h1
  have h3 : ((⌊p * 100 + 1 / 2⌋ : ℚ)) ≤ ((⌊q * 100 + 1 / 2⌋ : ℚ)) := by
    exact_mod_cast h2
  linarith

/-- The lexicographic order "importance strictly larger, or equal importance
and id strictly smaller" — the shape of the fully deterministic ranking. -/
def rankLex (p q : String × ℚ) : Prop :=
  q.2 < p.2 ∨ (p.2 = q.2 ∧ p.1 < q.1)

/-- Inserting an element whose id is strictly below every id in an already
lex-ordered list preserves the lex order (stability of the insertion). -/
theorem orderedInsert_rankLex (x : String × ℚ) :
    ∀ L : List (String × ℚ), L.Pairwise rankLex → (∀ b ∈ L, x.1 < b.1) →
      (List.orderedInsert (fun p q => q.2 ≤ p.2) x L).Pairwise rankLex
  | [], _, _ => List.pairwise_singleton _ _
  | b :: bs, hL, hid => by
    by_cases hr : b.2 ≤ x.2
    · rw [List.orderedInsert_of_le _ bs hr]
      refine List.Pairwise.cons ?_ hL
      intro c hc
      have hcb : c = b ∨ c ∈ bs := List.mem_cons.mp hc
      have hcle : c.2 ≤ x.2 := by
        rcases hcb with rfl | hcbs
        · exact hr
        · have := (List.rel_of_pairwise_cons hL) hcbs
          rcases this with hlt | ⟨heq, _⟩
          · exact le_trans (le_of_lt hlt) hr
          · exact heq ▸ hr
      rcases lt_or_eq_of_le hcle with hlt | heq
      · exact Or.inl hlt
      · exact Or.inr ⟨heq.symm, hid c hc⟩
    · have hstep : List.orderedInsert (fun p q => q.2 ≤ p.2) x (b :: bs) =
          b :: List.orderedInsert (fun p q => q.2 ≤ p.2) x bs := by
        simp only [List.orderedInsert, if_neg hr]
      rw [hstep]
      refine List.Pairwise.cons ?_
        (orderedInsert_rankLex x bs hL.of_cons fun c hc => hid c (List.mem_cons_of_mem _ hc))
      intro c hc
      have : c ∈ x :: bs := ((List.perm_orderedInsert _ x bs).mem_iff).mp hc
      rcases List.mem_cons.mp this with rfl | hcbs
      · exact Or.inl (lt_of_not_le hr)
      · exact (List.rel_of_pairwise_cons hL) hcbs

/-- Stable descending sort of a strictly-id-ascending list is lex-ordered:
importance descending, ids ascending among equal importances. -/
theorem sortRankedDesc_rankLex :
    ∀ l : List (String × ℚ), l.Pairwise (fun p q => p.1 < q.1) →
      (sortRankedDesc l).Pairwise rankLex
  | [], _ => List.Pairwise.nil
  | x :: xs, h => by
    have hx : ∀ b ∈ sortRankedDesc xs, x.1 < b.1 := by
      intro b hb
      exact (List.rel_of_pairwise_cons h) (mem_sortRankedDesc.mp hb)
    exact orderedInsert_rankLex x _ (sortRankedDesc_rankLex xs h.of_cons) hx

/-- The descending sort is sorted: each score is at least every later one. -/
theorem sortRankedDesc_sorted (l : List (String × ℚ)) :
    (sortRankedDesc l).Pairwise fun p q => q.2 ≤ p.2 := by
  haveI : IsTotal (String × ℚ) fun p q => q.2 ≤ p.2 := ⟨fun a b => le_total b.2 a.2⟩
  haveI : IsTrans (String × ℚ) fun p q => q.2 ≤ p.2 := ⟨fun _ _ _ h1 h2 => le_trans h2 h1⟩
  exact List.sorted_insertionSort _ l

/-- `foldl max` dominates its initial value. -/
theorem init_le_foldl_max : ∀ (l : List ℚ) (init : ℚ), init ≤ l.foldl max init
  | [], _ => le_refl _
  | x :: xs, init =>
    le_trans (le_max_left init x) (init_le_foldl_max xs (max init x))

/-- `foldl max` dominates every list element. -/
theorem mem_le_foldl_max : ∀ {x : ℚ} (l : List ℚ) (init : ℚ), x ∈ l → x ≤ l.foldl max init
  | _, [], _, hx => absurd hx (List.not_mem_nil _)
  | x, y :: ys, init, hx => by
    rcases List.mem_cons.mp hx with rfl | hx'
    · exact le_trans (le_max_right init x) (init_le_foldl_max ys (max init x))
    · exact mem_le_foldl_max ys (max init y) hx'

/-- `listMax0` dominates every list element. -/
theorem le_listMax0 {x : ℚ} {l : List ℚ} (hx : x ∈ l) : x ≤ Ml.listMax0 l := by
  cases l with
  | nil => exact absurd hx (List.not_mem_nil _)
  | cons y ys =>
    rcases List.mem_cons.mp hx with rfl | hx'
    · exact init_le_foldl_max ys x
    · exact mem_le_foldl_max ys y hx'

/-- One clamped additive boost step stays inside `[0, 1]`. -/
theorem clamp01_step {x b : ℚ} (hx : 0 ≤ x) (hb : 0 ≤ b) :
    0 ≤ min 1 (x + b) ∧ min 1 (x + b) ≤ 1 :=
  ⟨le_min zero_le_one (add_nonneg hx hb), min_le_left _ _⟩

/-- Characterisation of the surviving `(skill_id, variant)` pairs of the
semantic extractor. -/
theorem mem_survivors_iff {tax : List Skill} {sim : String → String → ℚ} {thr : ℚ}
    {chunks : List String} {role : String} {q : String × String} :
    q ∈ Ml.survivors tax sim thr chunks role ↔
      q ∈ Ml.variantMap tax ∧ thr ≤ Ml.bestScore sim chunks q.2 ∧
        ∃ m, lookupSkill tax q.1 = some m ∧ role ∈ m.roles := by
  unfold Ml.survivors
  rw [List.mem_filter]
  constructor
  · rintro ⟨hv, hb⟩
    rw [Bool.and_eq_true] at hb
    refine ⟨hv, of_decide_eq_true hb.1, ?_⟩
    rcases hL : lookupSkill tax q.1 with _ | m
    · rw [hL] at hb; exact absurd hb.2 (by simp)
    · rw [hL] at hb; exact ⟨m, rfl, of_decide_eq_true hb.2⟩
  · rintro ⟨hv, hthr, m, hL, hrole⟩
    refine ⟨hv, ?_⟩
    rw [Bool.and_eq_true, hL]
    exact ⟨decide_eq_true hthr, decide_eq_true hrole⟩

/-- The semantic extractor when the chunk list is non-empty. -/
theorem ml_extract_eq {tax : List Skill} {sim : String → String → ℚ} {thr : ℚ}
    {text role : String}
    (h : (Ml.chunk_text (Ml.normalize_text text)).isEmpty = false) :
    Ml.extract_skills tax sim thr text role =
      (firstDedup ((Ml.survivors tax sim thr (Ml.chunk_text (Ml.normalize_text text))
        role).map Prod.fst)).map fun sid =>
          (sid, Ml.groupFound sim (Ml.chunk_text (Ml.normalize_text text))
            (Ml.survivors tax sim thr (Ml.chunk_text (Ml.normalize_text text)) role) sid) := by
  simp [Ml.extract_skills, h]

/-- Projecting `skill_id` back out of the assembled matched list. -/
theorem gapAnalyze_matched_ids (tax : List Skill) (rsk jsk : List (String × SkillFound))
    (ranked : List (String × ℚ)) (reason role : String) :
    (gapAnalyze tax rsk jsk ranked reason role).matched.map (·.skill_id) =
      matchedIdsOf (rsk.map Prod.fst) (jsk.map Prod.fst) := by
  unfold gapAnalyze
  generalize matchedIdsOf (rsk.map Prod.fst) (jsk.map Prod.fst) = ids
  induction ids with
  | nil => rfl
  | cons i l ih => exact congrArg (i :: ·) ih

/-- Projecting `skill_id` back out of the assembled missing list. -/
theorem gapAnalyze_missing_ids (tax : List Skill) (rsk jsk : List (String × SkillFound))
    (ranked : List (String × ℚ)) (reason role : String) :
    (gapAnalyze tax rsk jsk ranked reason role).missing.map (·.skill_id) =
      ranked.map Prod.fst := by
  unfold gapAnalyze
  induction ranked with
  | nil => rfl
  | cons p l ih => exact congrArg (p.1 :: ·) ih

/-- The assembled missing list is the ranked list mapped through the
record constructor. -/
theorem gapAnalyze_missing_eq (tax : List Skill) (rsk jsk : List (String × SkillFound))
    (ranked : List (String × ℚ)) (reason role : String) :
    (gapAnalyze tax rsk jsk ranked reason role).missing =
      ranked.map fun p =>
        MissingOut.mk p.1 (((lookupSkill tax p.1).getD ⟨p.1, "", [], [], "", none⟩).canonical_name)
          (((lookupSkill tax p.1).getD ⟨p.1, "", [], [], "", none⟩).category)
          (round2 p.2) (priority p.2) reason (suggested_path tax p.1) :=
  rfl

/-- Both `rankedMissing` lists start from the sorted missing ids keyed with
their importances, so the ranked keys are a permutation of those ids. -/
theorem ranked_map_fst (ids : List String) (f : String → ℚ) :
    List.Perm ((sortRankedDesc (ids.map fun sid => (sid, f sid))).map Prod.fst) ids := by
  refine List.Perm.trans (List.Perm.map _ (List.perm_insertionSort _ _)) ?_
  rw [map_fst_keyed]

/-- `Api.analyze` unfolded to the shared assembler (definitional). -/
theorem api_analyze_def (tax : List Skill) (r j ρ : String) :
    Api.analyze tax r j ρ =
      gapAnalyze tax (Api.extract_skills tax r ρ) (Api.extract_skills tax j ρ)
        (sortRankedDesc ((missingIdsOf ((Api.extract_skills tax r ρ).map Prod.fst)
          ((Api.extract_skills tax j ρ).map Prod.fst)).map fun sid =>
            (sid, Api.importance_score tax j sid)))
        "Ranked by frequency + 'required/must' proximity in the job text (heuristic)."
        ρ :=
  rfl

/-- `Ml.analyze` unfolded to the shared assembler (definitional). -/
theorem ml_analyze_def (tax : List Skill) (sim : String → String → ℚ) (thr : ℚ)
    (r j ρ : String) :
    Ml.analyze tax sim thr r j ρ =
      gapAnalyze tax (Ml.extract_skills tax sim thr r ρ) (Ml.extract_skills tax sim thr j ρ)
        (sortRankedDesc ((missingIdsOf ((Ml.extract_skills tax sim thr r ρ).map Prod.fst)
          ((Ml.extract_skills tax sim thr j ρ).map Prod.fst)).map fun sid =>
            (sid, Ml.importance_score tax j sid
              ((((Ml.extract_skills tax sim thr j ρ).find? fun p => decide (p.1 = sid)).map
                fun p => p.2.confidence).getD 0))))
        "Analyzed via ML semantic similarity + requirement context."
        ρ :=
  rfl

/-- The matched/missing partition facts, generic over the extraction
results and the importance function. -/
theorem gap_partition (tax : List Skill) (rsk jsk : List (String × SkillFound))
    (f : String → ℚ) (reason role : String) :
    (∀ k ∈ (gapAnalyze tax rsk jsk
        (sortRankedDesc ((missingIdsOf (rsk.map Prod.fst) (jsk.map Prod.fst)).map fun sid =>
          (sid, f sid))) reason role).matched.map (·.skill_id),
      k ∉ (gapAnalyze tax rsk jsk
        (sortRankedDesc ((missingIdsOf (rsk.map Prod.fst) (jsk.map Prod.fst)).map fun sid =>
          (sid, f sid))) reason role).missing.map (·.skill_id)) ∧
    (∀ k, k ∈ (gapAnalyze tax rsk jsk
        (sortRankedDesc ((missingIdsOf (rsk.map Prod.fst) (jsk.map Prod.fst)).map fun sid =>
          (sid, f sid))) reason role).matched.map (·.skill_id) ∨
          k ∈ (gapAnalyze tax rsk jsk
        (sortRankedDesc ((missingIdsOf (rsk.map Prod.fst) (jsk.map Prod.fst)).map fun sid =>
          (sid, f sid))) reason role).missing.map (·.skill_id) →
      k ∈ rsk.map Prod.fst ∨ k ∈ jsk.map Prod.fst) ∧
    (∀ k ∈ (gapAnalyze tax rsk jsk
        (sortRankedDesc ((missingIdsOf (rsk.map Prod.fst) (jsk.map Prod.fst)).map fun sid =>
          (sid, f sid))) reason role).missing.map (·.skill_id),
      k ∈ jsk.map Prod.fst ∧ k ∉ rsk.map Prod.fst) := by
  rw [gapAnalyze_matched_ids, gapAnalyze_missing_ids]
  have hperm := ranked_map_fst (missingIdsOf (rsk.map Prod.fst) (jsk.map Prod.fst)) f
  have hmiss : ∀ k, k ∈ ((sortRankedDesc ((missingIdsOf (rsk.map Prod.fst)
      (jsk.map Prod.fst)).map fun sid => (sid, f sid))).map Prod.fst) ↔
      k ∈ jsk.map Prod.fst ∧ k ∉ rsk.map Prod.fst := by
    intro k
    rw [hperm.mem_iff]
    exact mem_missingIdsOf
  refine ⟨?_, ?_, ?_⟩
  · intro k hk hk2
    have h1 := (mem_matchedIdsOf.mp hk).1
    exact ((hmiss k).mp hk2).2 h1
  · intro k hk
    rcases hk with hk | hk
    · exact Or.inl (mem_matchedIdsOf.mp hk).1
    · exact Or.inr ((hmiss k).mp hk).1
  · intro k hk
    exact (hmiss k).mp hk

/-- The assembled missing list descends in (rounded) importance. -/
theorem gap_missing_sorted (tax : List Skill) (rsk jsk : List (String × SkillFound))
    (l : List (String × ℚ)) (reason role : String) :
    (gapAnalyze tax rsk jsk (sortRankedDesc l) reason role).missing.Pairwise
      fun a b => b.importance ≤ a.importance := by
  rw [gapAnalyze_missing_eq]
  refine List.Pairwise.map _ ?_ (sortRankedDesc_sorted l)
  intro p q hpq
  exact round2_mono hpq

/-! ## Concrete fixtures used by the claim theorems -/

/-- The single-skill taxonomy of the §8 scenario. -/
def taxScenario : List Skill :=
  [⟨"python", "Python", ["Python", "Python3"], ["backend"], "APIs & Integration", some "core"⟩]

/-- One-skill taxonomy with alias `Go`. -/
def taxGo : List Skill :=
  [⟨"go", "Go", ["Go"], ["backend"], "DevOps Fundamentals", none⟩]

/-- One-skill taxonomy whose canonical name (`PostgreSQL`) is not a
substring of its alias (`Postgres`). -/
def taxPg : List Skill :=
  [⟨"postgresql", "PostgreSQL", ["Postgres"], ["backend"], "Databases", none⟩]

/-- One-skill taxonomy for the semantic-variant fixtures. -/
def taxS : List Skill :=
  [⟨"s", "S", ["S"], ["backend"], "c", none⟩]

/-- Constant similarity oracle. -/
def simConst (q : ℚ) : String → String → ℚ := fun _ _ => q

/-- Two-skill taxonomy whose ids order `a < z`. -/
def taxAZ : List Skill :=
  [⟨"a", "A", ["A"], ["backend"], "c", none⟩, ⟨"z", "Z", ["Z"], ["backend"], "c", none⟩]

/-- Similarity oracle giving variant `A` score `0.721` and variant `Z`
score `0.723` on the job-text chunk, and `0` elsewhere. -/
def simAZ : String → String → ℚ := fun c v =>
  if c = "Alpha Zulu work." then
    (if v = "A" then 721 / 1000 else if v = "Z" then 723 / 1000 else 0)
  else 0

set_option maxRecDepth 80000

/-! ## Claim C3 -/

/-- **C3.** With the one-skill taxonomy (`python`, aliases
`["Python","Python3"]`, role `backend`, category `APIs & Integration`,
level `core`), job text `"Candidate must have strong Python skills."`,
résumé text `"Built services in Java."` and role `backend`: the missing
list contains `python` with importance at least `0.60` (it is `0.72`) and
priority `Medium`, and the matched list does not contain `python`. -/
theorem C3_theorem :
    (∃ e ∈ (Api.analyze taxScenario "Built services in Java."
        "Candidate must have strong Python skills." "backend").missing,
      e.skill_id = "python" ∧ 60 / 100 ≤ e.importance ∧
        (e.priority = "Medium" ∨ e.priority = "High")) ∧
    "python" ∉ (Api.analyze taxScenario "Built services in Java."
        "Candidate must have strong Python skills." "backend").matched.map
        (fun e => e.skill_id) := by
  with_unfolding_all decide

/-! ## Claim C8 -/

/-- **C8.** For a taxonomy skill with alias `Go` tagged with the requested
role (all other skill fields arbitrary), the lexical `extract_skills`
detects the skill in `"Go developer"` (reporting the matched string `go`
with confidence `0.63`) but detects nothing in `"Golang"` or `"Django"`:
the boundary lookarounds prevent substring matches. -/
theorem C8_theorem (cn cat : String) (lvl : Option String)
    (roles : List String) (role : String) (hrole : role ∈ roles) :
    Api.extract_skills [⟨"go", cn, ["Go"], roles, cat, lvl⟩] "Go developer" role =
      [("go", ⟨"go", ["go"], 63 / 100⟩)] ∧
    Api.extract_skills [⟨"go", cn, ["Go"], roles, cat, lvl⟩] "Golang" role = [] ∧
    Api.extract_skills [⟨"go", cn, ["Go"], roles, cat, lvl⟩] "Django" role = [] := by
  refine ⟨?_, ?_, ?_⟩ <;>
  · simp only [Api.extract_skills]
    rw [show uniqueSkills [⟨"go", cn, ["Go"], roles, cat, lvl⟩] =
      [⟨"go", cn, ["Go"], roles, cat, lvl⟩] from rfl]
    simp only [List.filterMap_cons, List.filterMap_nil]
    rw [if_pos hrole,
      show Api.lexAlts ⟨"go", cn, ["Go"], roles, cat, lvl⟩ = [['g', 'o']] from rfl]
    with_unfolding_all decide

/-- Witness for C8 at a concrete role. -/
theorem C8_witness :
    ("backend" ∈ ["backend"]) ∧
    (Api.extract_skills [⟨"go", "Go", ["Go"], ["backend"], "DevOps Fundamentals", none⟩]
        "Go developer" "backend" = [("go", ⟨"go", ["go"], 63 / 100⟩)] ∧
      Api.extract_skills [⟨"go", "Go", ["Go"], ["backend"], "DevOps Fundamentals", none⟩]
        "Golang" "backend" = [] ∧
      Api.extract_skills [⟨"go", "Go", ["Go"], ["backend"], "DevOps Fundamentals", none⟩]
        "Django" "backend" = []) :=
  ⟨by decide, C8_theorem "Go" "DevOps Fundamentals" none ["backend"] "backend" (by decide)⟩

/-! ## Claim C1 -/

/-- **C1, counterexample.**  The claim says the `+0.25` requirement-proximity
boost is granted iff a requirement keyword appears within 110 characters of
*any alias or the canonical name* in the lowercased job text, *in both
variants*.  For the skill `postgresql` (canonical name `PostgreSQL`, alias
`Postgres`) and job text `"postgres is required"`, the keyword `required`
is adjacent to the alias `postgres` (second conjunct), yet the lexical
`importance_score` returns `0.37 = min(1, 0.25 + 0.12·1)` — the unboosted
base (with the boost it would be `0.62`): the lexical variant only consults
the canonical name, which does not occur in the job text. -/
theorem C1_counterexample :
    Api.importance_score taxPg "postgres is required" "postgresql" = 37 / 100 ∧
    (∃ name ∈ ("PostgreSQL" :: ["Postgres"] : List String), ∃ kw ∈ requiredWords,
      proxMatch kw.data (name.data.map Char.toLower)
        ("postgres is required".data.map Char.toLower) = true) := by
  constructor
  · with_unfolding_all decide
  · with_unfolding_all decide

/-- **C1, amended.**  Both `importance_score` variants add the
requirement-proximity boost at most once per call (`b ∈ {0, 0.25}`), and:
the *semantic* variant grants it iff some requirement keyword
proximity-matches (gap of at most 110 non-newline characters, either order)
some name among the canonical name *and* the aliases in the *lowercased*
job text, while the *lexical* variant grants it iff some keyword
proximity-matches the *canonical name only* in the *normalized* job text. -/
theorem C1_theorem (tax : List Skill) (job sid : String) (meta : Skill)
    (h : lookupSkill tax sid = some meta) (base : ℚ) :
    (∃ b : ℚ, (b = 0 ∨ b = 0.25) ∧
      Ml.importance_score tax job sid base =
        (if meta.level = some "core" then min 1 (min 1 (base + b) + 0.1)
         else min 1 (base + b)) ∧
      ((b = 0.25) ↔ ∃ name ∈ meta.canonical_name :: meta.aliases, ∃ kw ∈ requiredWords,
        proxMatch kw.data (name.data.map Char.toLower) (job.data.map Char.toLower) = true)) ∧
    (∃ b : ℚ, (b = 0 ∨ b = 0.25) ∧
      Api.importance_score tax job sid =
        (if meta.level = some "core" then
          min 1 (min 1 (min 1 (0.25 + 0.12 *
            (((meta.aliases.map fun a =>
              Api.countHits (Api.normalizeL a.data) (Api.normalizeL job.data)).sum : ℕ) : ℚ)) + b) + 0.1)
         else
          min 1 (min 1 (0.25 + 0.12 *
            (((meta.aliases.map fun a =>
              Api.countHits (Api.normalizeL a.data) (Api.normalizeL job.data)).sum : ℕ) : ℚ)) + b)) ∧
      ((b = 0.25) ↔ ∃ kw ∈ requiredWords,
        proxMatch kw.data (Api.normalizeL meta.canonical_name.data)
          (Api.normalizeL job.data) = true)) := by
  have h025 : (0 : ℚ) ≠ 0.25 := by norm_num
  constructor
  · by_cases hc : (meta.canonical_name :: meta.aliases).any
        (fun n => requiredWords.any fun kw =>
          proxMatch kw.data (n.data.map Char.toLower) (job.data.map Char.toLower))
    · refine ⟨0.25, Or.inr rfl, ?_, ?_⟩
      · simp only [Ml.importance_score, h, if_pos hc]
      · simp only [iff_true_intro rfl, true_iff]
        simpa [List.any_eq_true] using hc
    · refine ⟨0, Or.inl rfl, ?_, ?_⟩
      · simp only [Ml.importance_score, h, if_neg hc]
      · constructor
        · intro h0; exact absurd h0 h025
        · intro hex
          exfalso
          refine hc ?_
          simpa [List.any_eq_true] using hex
  · by_cases hc : requiredWords.any fun kw =>
        proxMatch kw.data (Api.normalizeL meta.canonical_name.data) (Api.normalizeL job.data)
    · refine ⟨0.25, Or.inr rfl, ?_, ?_⟩
      · simp only [Api.importance_score, h, if_pos hc]
      · simp only [iff_true_intro rfl, true_iff]
        simpa [List.any_eq_true] using hc
    · refine ⟨0, Or.inl rfl, ?_, ?_⟩
      · simp only [Api.importance_score, h, if_neg hc]
        have hle : min 1 (0.25 + 0.12 *
            (((meta.aliases.map fun a =>
              Api.countHits (Api.normalizeL a.data) (Api.normalizeL job.data)).sum : ℕ) : ℚ)) ≤ 1 :=
          min_le_left _ _
        rw [add_zero, min_eq_right hle]
      · constructor
        · intro h0; exact absurd h0 h025
        · intro hex
          exfalso
          refine hc ?_
          simpa [List.any_eq_true] using hex

/-- Witness for C1 at the `postgresql` fixture. -/
theorem C1_witness :
    (lookupSkill taxPg "postgresql" =
      some ⟨"postgresql", "PostgreSQL", ["Postgres"], ["backend"], "Databases", none⟩) ∧
    ((∃ b : ℚ, (b = 0 ∨ b = 0.25) ∧
      Ml.importance_score taxPg "postgres is required" "postgresql" (1 / 2) =
        (if (none : Option String) = some "core" then min 1 (min 1 (1 / 2 + b) + 0.1)
         else min 1 (1 / 2 + b)) ∧
      ((b = 0.25) ↔ ∃ name ∈ ("PostgreSQL" :: ["Postgres"] : List String), ∃ kw ∈ requiredWords,
        proxMatch kw.data (name.data.map Char.toLower)
          ("postgres is required".data.map Char.toLower) = true)) ∧
    (∃ b : ℚ, (b = 0 ∨ b = 0.25) ∧
      Api.importance_score taxPg "postgres is required" "postgresql" =
        (if (none : Option String) = some "core" then
          min 1 (min 1 (min 1 (0.25 + 0.12 *
            (((["Postgres"].map fun a =>
              Api.countHits (Api.normalizeL a.data)
                (Api.normalizeL "postgres is required".data)).sum : ℕ) : ℚ)) + b) + 0.1)
         else
          min 1 (min 1 (0.25 + 0.12 *
            (((["Postgres"].map fun a =>
              Api.countHits (Api.normalizeL a.data)
                (Api.normalizeL "postgres is required".data)).sum : ℕ) : ℚ)) + b)) ∧
      ((b = 0.25) ↔ ∃ kw ∈ requiredWords,
        proxMatch kw.data (Api.normalizeL "PostgreSQL".data)
          (Api.normalizeL "postgres is required".data) = true))) :=
  ⟨by decide,
   C1_theorem taxPg "postgres is required" "postgresql"
     ⟨"postgresql", "PostgreSQL", ["Postgres"], ["backend"], "Databases", none⟩
     (by decide) (1 / 2)⟩

/-! ## Claim C2 -/

/-- **C2, counterexample.**  The claim says `found_as` preserves the case of
each matched string exactly as it occurred in the input.  For the §8
taxonomy and input `"We use Python daily"` (which contains the surface form
`Python`), the lexical extractor reports `found_as = ["python"]`: matching
runs over the lower-cased normalized text, so the input casing `Python` is
not preserved. -/
theorem C2_counterexample :
    Api.extract_skills taxScenario "We use Python daily" "backend" =
      [("python", ⟨"python", ["python"], 63 / 100⟩)] ∧
    (["python"] : List String) ≠ ["Python"] := by
  constructor
  · with_unfolding_all decide
  · decide

/-- **C2, amended.**  Every `SkillMatch` of the lexical `extract_skills`
has `found_as` equal to the sorted deduplicated list of the literal strings
matched *in the normalized (lower-cased) text*; consequently every reported
string is the lower-cased form of one of the skill's aliases (input casing
is not preserved). -/
theorem C2_theorem (tax : List Skill) (text role : String) (p : String × SkillFound)
    (hp : p ∈ Api.extract_skills tax text role) :
    ∃ s ∈ uniqueSkills tax, s.id = p.1 ∧ p.2.skill_id = s.id ∧
      p.2.found_as =
        sortStrs ((firstDedup (scanHits (Api.lexAlts s) (Api.normalizeL text.data))).map
          fun h => (⟨h⟩ : String)) ∧
      ∀ f ∈ p.2.found_as, ∃ a ∈ s.aliases, f.data = a.data.map Char.toLower := by
  simp only [Api.extract_skills] at hp
  rcases List.mem_filterMap.mp hp with ⟨s, hs, hfs⟩
  refine ⟨s, hs, ?_⟩
  split at hfs
  · by_cases hempty :
      (firstDedup (scanHits (Api.lexAlts s) (Api.normalizeL text.data))).isEmpty
    · rw [if_pos hempty] at hfs; exact absurd hfs (by simp)
    · rw [if_neg hempty] at hfs
      have hp' := Option.some.inj hfs
      subst hp'
      refine ⟨rfl, rfl, rfl, ?_⟩
      intro f hf
      simp only at hf
      rcases List.mem_map.mp (mem_sortStrs.mp hf) with ⟨hchars, hmem, rfl⟩
      have halts : hchars ∈ Api.lexAlts s :=
        scanHits_mem_alts (mem_firstDedup.mp hmem)
      rcases List.mem_map.mp halts with ⟨a, ha, rfl⟩
      exact ⟨a, ha, rfl⟩
  · exact absurd hfs (by simp)

/-- Witness for C2 at the `Go` fixture. -/
theorem C2_witness :
    (("go", (⟨"go", ["go"], 63 / 100⟩ : SkillFound)) ∈
      Api.extract_skills taxGo "Go developer" "backend") ∧
    (∃ s ∈ uniqueSkills taxGo, s.id = "go" ∧
      (⟨"go", ["go"], 63 / 100⟩ : SkillFound).skill_id = s.id ∧
      (⟨"go", ["go"], 63 / 100⟩ : SkillFound).found_as =
        sortStrs ((firstDedup (scanHits (Api.lexAlts s)
          (Api.normalizeL "Go developer".data))).map fun h => (⟨h⟩ : String)) ∧
      ∀ f ∈ (⟨"go", ["go"], 63 / 100⟩ : SkillFound).found_as,
        ∃ a ∈ s.aliases, f.data = a.data.map Char.toLower) :=
  ⟨by with_unfolding_all decide,
   C2_theorem taxGo "Go developer" "backend" ("go", ⟨"go", ["go"], 63 / 100⟩)
     (by with_unfolding_all decide)⟩

/-! ## Claim C5 -/

/-- **C5.**  In both variants of `analyze`: the matched and missing id sets
are disjoint, their union is contained in the union of the skill ids
extracted from either text, and every missing id was extracted from the job
text and not from the résumé text. -/
theorem C5_theorem (tax : List Skill) (resume job role : String)
    (sim : String → String → ℚ) (thr : ℚ) :
    ((∀ k ∈ (Api.analyze tax resume job role).matched.map (·.skill_id),
        k ∉ (Api.analyze tax resume job role).missing.map (·.skill_id)) ∧
     (∀ k, k ∈ (Api.analyze tax resume job role).matched.map (·.skill_id) ∨
           k ∈ (Api.analyze tax resume job role).missing.map (·.skill_id) →
        k ∈ (Api.extract_skills tax resume role).map Prod.fst ∨
          k ∈ (Api.extract_skills tax job role).map Prod.fst) ∧
     (∀ k ∈ (Api.analyze tax resume job role).missing.map (·.skill_id),
        k ∈ (Api.extract_skills tax job role).map Prod.fst ∧
          k ∉ (Api.extract_skills tax resume role).map Prod.fst)) ∧
    ((∀ k ∈ (Ml.analyze tax sim thr resume job role).matched.map (·.skill_id),
        k ∉ (Ml.analyze tax sim thr resume job role).missing.map (·.skill_id)) ∧
     (∀ k, k ∈ (Ml.analyze tax sim thr resume job role).matched.map (·.skill_id) ∨
           k ∈ (Ml.analyze tax sim thr resume job role).missing.map (·.skill_id) →
        k ∈ (Ml.extract_skills tax sim thr resume role).map Prod.fst ∨
          k ∈ (Ml.extract_skills tax sim thr job role).map Prod.fst) ∧
     (∀ k ∈ (Ml.analyze tax sim thr resume job role).missing.map (·.skill_id),
        k ∈ (Ml.extract_skills tax sim thr job role).map Prod.fst ∧
          k ∉ (Ml.extract_skills tax sim thr resume role).map Prod.fst)) := by
  constructor
  · rw [api_analyze_def]
    exact gap_partition tax _ _ (fun sid => Api.importance_score tax job sid) _ role
  · rw [ml_analyze_def]
    exact gap_partition tax _ _ _ _ role

/-! ## Claim C6 -/

/-- **C6.**  In both variants, the missing list returned by `analyze` is
sorted by importance in descending order: every entry's importance is at
least that of every later entry (in particular of the adjacent one). -/
theorem C6_theorem (tax : List Skill) (resume job role : String)
    (sim : String → String → ℚ) (thr : ℚ) :
    (Api.analyze tax resume job role).missing.Pairwise
      (fun a b => b.importance ≤ a.importance) ∧
    (Ml.analyze tax sim thr resume job role).missing.Pairwise
      (fun a b => b.importance ≤ a.importance) := by
  constructor
  · rw [api_analyze_def]; exact gap_missing_sorted tax _ _ _ _ role
  · rw [ml_analyze_def]; exact gap_missing_sorted tax _ _ _ _ role

/-! ## Claim C4 -/

/-- **C4, counterexample.**  The claim ranges over *every* configured
similarity threshold; with threshold `-1` and an embedding oracle whose
similarities are `-0.5`, the semantic extractor keeps the variant and
reports `confidence = min(1, -0.5) = -0.5 ∉ [0,1]` — the code clamps above
at `1.0` but never below at `0`. -/
theorem C4_counterexample :
    ∃ p ∈ Ml.extract_skills taxS (simConst (-(1 / 2))) (-1) "Hello world." "backend",
      ¬ (0 ≤ p.2.confidence ∧ p.2.confidence ≤ 1) := by
  with_unfolding_all decide

/-- **C4, amended.**  Every confidence and importance of the *lexical*
variant lies in `[0,1]`.  In the *semantic* variant every confidence is at
most `1`, and is non-negative whenever the configured threshold is
non-negative; every importance is at most `1`, and is non-negative whenever
the base confidence passed in is non-negative (a negative threshold admits
negative values, as the counterexample shows). -/
theorem C4_theorem :
    (∀ (tax : List Skill) (text role : String) (p : String × SkillFound),
      p ∈ Api.extract_skills tax text role →
        0 ≤ p.2.confidence ∧ p.2.confidence ≤ 1) ∧
    (∀ (tax : List Skill) (job sid : String),
        0 ≤ Api.importance_score tax job sid ∧ Api.importance_score tax job sid ≤ 1) ∧
    (∀ (tax : List Skill) (sim : String → String → ℚ) (thr : ℚ) (text role : String)
        (p : String × SkillFound), p ∈ Ml.extract_skills tax sim thr text role →
        p.2.confidence ≤ 1 ∧ (0 ≤ thr → 0 ≤ p.2.confidence)) ∧
    (∀ (tax : List Skill) (job sid : String) (base : ℚ),
        Ml.importance_score tax job sid base ≤ 1 ∧
          (0 ≤ base → 0 ≤ Ml.importance_score tax job sid base)) := by
  refine ⟨?_, ?_, ?_, ?_⟩
  · intro tax text role p hp
    simp only [Api.extract_skills] at hp
    rcases List.mem_filterMap.mp hp with ⟨s, _, hfs⟩
    split at hfs
    · by_cases hempty :
        (firstDedup (scanHits (Api.lexAlts s) (Api.normalizeL text.data))).isEmpty
      · rw [if_pos hempty] at hfs; exact absurd hfs (by simp)
      · rw [if_neg hempty] at hfs
        have hp' := Option.some.inj hfs
        subst hp'
        exact ⟨le_min (by norm_num) (by positivity), min_le_left _ _⟩
    · exact absurd hfs (by simp)
  · intro tax job sid
    rcases hL : lookupSkill tax sid with _ | meta
    · simp only [Api.importance_score, hL]; norm_num
    · simp only [Api.importance_score, hL]
      have h0 : (0 : ℚ) ≤ min 1 (0.25 + 0.12 * (((meta.aliases.map fun a =>
            Api.countHits (Api.normalizeL a.data) (Api.normalizeL job.data)).sum : ℕ) : ℚ)) ∧
          min 1 (0.25 + 0.12 * (((meta.aliases.map fun a =>
            Api.countHits (Api.normalizeL a.data) (Api.normalizeL job.data)).sum : ℕ) : ℚ)) ≤ 1 :=
        ⟨le_min (by norm_num) (by positivity), min_le_left _ _⟩
      split
      · split
        · exact clamp01_step (clamp01_step h0.1 (by norm_num)).1 (by norm_num)
        · exact clamp01_step h0.1 (by norm_num)
      · split
        · exact clamp01_step h0.1 (by norm_num)
        · exact h0
  · intro tax sim thr text role p hp
    by_cases hch : (Ml.chunk_text (Ml.normalize_text text)).isEmpty
    · rw [show Ml.extract_skills tax sim thr text role = [] from if_pos hch] at hp
      exact absurd hp (List.not_mem_nil _)
    · rw [ml_extract_eq (Bool.eq_false_iff.mpr hch)] at hp
      rcases List.mem_map.mp hp with ⟨sid, hsid, rfl⟩
      refine ⟨min_le_left _ _, ?_⟩
      intro hthr
      refine le_min zero_le_one ?_
      rcases List.mem_map.mp (mem_firstDedup.mp hsid) with ⟨q, hq, hqfst⟩
      have hqm : q ∈ (Ml.survivors tax sim thr (Ml.chunk_text (Ml.normalize_text text))
          role).filter fun p => decide (p.1 = sid) :=
        List.mem_filter.mpr ⟨hq, decide_eq_true hqfst⟩
      have hval : Ml.bestScore sim (Ml.chunk_text (Ml.normalize_text text)) q.2 ∈
          ((Ml.survivors tax sim thr (Ml.chunk_text (Ml.normalize_text text))
            role).filter fun p => decide (p.1 = sid)).map
              fun p => Ml.bestScore sim (Ml.chunk_text (Ml.normalize_text text)) p.2 :=
        List.mem_map_of_mem _ hqm
      have hthrq := (mem_survivors_iff.mp hq).2.1
      exact le_trans hthr (le_trans hthrq (le_listMax0 hval))
  · intro tax job sid base
    rcases hL : lookupSkill tax sid with _ | meta
    · simp only [Ml.importance_score, hL]
      norm_num
    · simp only [Ml.importance_score, hL]
      have hboost : (0 : ℚ) ≤ (if (meta.canonical_name :: meta.aliases).any
          (fun n => requiredWords.any fun kw => proxMatch kw.data
            (n.data.map Char.toLower) (job.data.map Char.toLower)) then (0.25 : ℚ) else 0) := by
        split <;> norm_num
      constructor
      · split
        · exact min_le_left _ _
        · exact min_le_left _ _
      · intro hbase
        split
        · exact (clamp01_step (clamp01_step hbase hboost).1 (by norm_num)).1
        · exact (clamp01_step hbase hboost).1

/-- Witness for C4 across its four clauses at concrete inputs. -/
theorem C4_witness :
    ((("go", (⟨"go", ["go"], 63 / 100⟩ : SkillFound)) ∈
        Api.extract_skills taxGo "Go developer" "backend") ∧
      (0 ≤ (63 / 100 : ℚ) ∧ (63 / 100 : ℚ) ≤ 1)) ∧
    (0 ≤ Api.importance_score taxPg "postgres is required" "postgresql" ∧
      Api.importance_score taxPg "postgres is required" "postgresql" ≤ 1) ∧
    ((("s", (⟨"s", ["S"], 1 / 2⟩ : SkillFound)) ∈
        Ml.extract_skills taxS (simConst (1 / 2)) (35 / 100) "Hello world." "backend") ∧
      ((1 / 2 : ℚ) ≤ 1 ∧ (0 ≤ (35 / 100 : ℚ) → 0 ≤ (1 / 2 : ℚ)))) ∧
    (Ml.importance_score taxS "Hello world." "s" (1 / 2) ≤ 1 ∧
      (0 ≤ (1 / 2 : ℚ) → 0 ≤ Ml.importance_score taxS "Hello world." "s" (1 / 2))) :=
  ⟨⟨by with_unfolding_all decide,
    C4_theorem.1 taxGo "Go developer" "backend" ("go", ⟨"go", ["go"], 63 / 100⟩)
      (by with_unfolding_all decide)⟩,
   C4_theorem.2.1 taxPg "postgres is required" "postgresql",
   ⟨by with_unfolding_all decide,
    C4_theorem.2.2.1 taxS (simConst (1 / 2)) (35 / 100) "Hello world." "backend"
      ("s", ⟨"s", ["S"], 1 / 2⟩) (by with_unfolding_all decide)⟩,
   C4_theorem.2.2.2 taxS "Hello world." "s" (1 / 2)⟩

/-! ## Claim C7 -/

/-- **C7.**  In the semantic extractor (with a non-empty chunk list and a
skill tagged with the requested role): a variant whose best similarity over
all chunks is *exactly* the threshold is retained — the skill appears in
the result with that variant in `found_as` — while a variant whose best
similarity is strictly below the threshold appears in no `found_as` at all
(the comparison in the code is `score < threshold → discard`, an inclusive
boundary). -/
theorem C7_theorem (tax : List Skill) (sim : String → String → ℚ) (thr : ℚ)
    (text role sid v : String) (meta : Skill)
    (hv : (sid, v) ∈ Ml.variantMap tax)
    (hm : lookupSkill tax sid = some meta)
    (hrole : role ∈ meta.roles)
    (hch : (Ml.chunk_text (Ml.normalize_text text)).isEmpty = false) :
    (Ml.bestScore sim (Ml.chunk_text (Ml.normalize_text text)) v = thr →
      ∃ p ∈ Ml.extract_skills tax sim thr text role, p.1 = sid ∧ v ∈ p.2.found_as) ∧
    (Ml.bestScore sim (Ml.chunk_text (Ml.normalize_text text)) v < thr →
      ∀ p ∈ Ml.extract_skills tax sim thr text role, v ∉ p.2.found_as) := by
  constructor
  · intro heq
    have hsurv : (sid, v) ∈ Ml.survivors tax sim thr
        (Ml.chunk_text (Ml.normalize_text text)) role :=
      mem_survivors_iff.mpr ⟨hv, le_of_eq heq.symm, meta, hm, hrole⟩
    have hsid : sid ∈ firstDedup ((Ml.survivors tax sim thr
        (Ml.chunk_text (Ml.normalize_text text)) role).map Prod.fst) :=
      mem_firstDedup.mpr (List.mem_map_of_mem Prod.fst hsurv)
    refine ⟨(sid, Ml.groupFound sim (Ml.chunk_text (Ml.normalize_text text))
      (Ml.survivors tax sim thr (Ml.chunk_text (Ml.normalize_text text)) role) sid),
      ?_, rfl, ?_⟩
    · rw [ml_extract_eq hch]
      exact List.mem_map_of_mem _ hsid
    · apply mem_sortStrs.mpr
      apply mem_firstDedup.mpr
      exact List.mem_map_of_mem Prod.snd (List.mem_filter.mpr ⟨hsurv, decide_eq_true rfl⟩)
  · intro hlt p hp hvin
    rw [ml_extract_eq hch] at hp
    rcases List.mem_map.mp hp with ⟨sid', _, rfl⟩
    have hv' : v ∈ ((Ml.survivors tax sim thr (Ml.chunk_text (Ml.normalize_text text))
        role).filter fun p => decide (p.1 = sid')).map Prod.snd :=
      mem_firstDedup.mp (mem_sortStrs.mp hvin)
    rcases List.mem_map.mp hv' with ⟨q, hq, hq2⟩
    have hthr := (mem_survivors_iff.mp (List.mem_filter.mp hq).1).2.1
    rw [hq2] at hthr
    exact absurd hthr (not_le.mpr hlt)

/-- Witness for C7: constant similarity `0.35` with threshold `0.35` —
the equal-to-threshold variant `S` is retained. -/
theorem C7_witness :
    ((("s", "S") ∈ Ml.variantMap taxS) ∧
      lookupSkill taxS "s" = some ⟨"s", "S", ["S"], ["backend"], "c", none⟩ ∧
      "backend" ∈ (⟨"s", "S", ["S"], ["backend"], "c", none⟩ : Skill).roles ∧
      (Ml.chunk_text (Ml.normalize_text "Hello world.")).isEmpty = false) ∧
    (Ml.bestScore (simConst (35 / 100)) (Ml.chunk_text (Ml.normalize_text "Hello world."))
        "S" = 35 / 100) ∧
    (∃ p ∈ Ml.extract_skills taxS (simConst (35 / 100)) (35 / 100) "Hello world." "backend",
      p.1 = "s" ∧ "S" ∈ p.2.found_as) :=
  ⟨⟨by decide, by decide, by decide, by decide⟩,
   by with_unfolding_all decide,
   (C7_theorem taxS (simConst (35 / 100)) (35 / 100) "Hello world." "backend" "s" "S"
      ⟨"s", "S", ["S"], ["backend"], "c", none⟩
      (by decide) (by decide) (by decide) (by decide)).1
    (by with_unfolding_all decide)⟩

/-! ## Claim C9 -/

/-- **C9.**  If the input text normalizes to the empty string (it is empty
or whitespace-only), both extractors return the empty mapping — and, being
total functions of their inputs, they cannot raise.  For the lexical
variant this needs every taxonomy alias to be a non-empty string (an empty
alias would make the boundary pattern match the empty position). -/
theorem C9_theorem (tax : List Skill) (text role : String)
    (sim : String → String → ℚ) (thr : ℚ)
    (haliases : ∀ s ∈ tax, ∀ a ∈ s.aliases, a.data ≠ []) :
    (Api.normalizeL text.data = [] → Api.extract_skills tax text role = []) ∧
    (Ml.normalize_text text = "" → Ml.extract_skills tax sim thr text role = []) := by
  constructor
  · intro hnorm
    show List.filterMap _ (uniqueSkills tax) = []
    rw [hnorm]
    apply List.filterMap_eq_nil_iff.mpr
    intro s hs
    have hone : ∀ a ∈ Api.lexAlts s, a ≠ [] := by
      intro a ha
      rcases List.mem_map.mp ha with ⟨a0, ha0, rfl⟩
      intro hcon
      exact haliases s (mem_of_mem_uniqueSkills hs) a0 ha0 (List.map_eq_nil_iff.mp hcon)
    rw [scanHits_nil _ hone]
    split
    · rfl
    · rfl
  · intro hnorm
    have hieq : (Ml.chunk_text (Ml.normalize_text text)).isEmpty = true := by
      rw [hnorm]; rfl
    exact if_pos hieq

/-- Witness for C9 on whitespace-only input. -/
theorem C9_witness :
    (∀ s ∈ taxGo, ∀ a ∈ s.aliases, a.data ≠ []) ∧
    Api.normalizeL ("  " : String).data = [] ∧
    Api.extract_skills taxGo "  " "backend" = [] ∧
    Ml.normalize_text "  " = "" ∧
    Ml.extract_skills taxGo (simConst 0) (35 / 100) "  " "backend" = [] :=
  ⟨by decide, by decide,
   (C9_theorem taxGo "  " "backend" (simConst 0) (35 / 100) (by decide)).1 (by decide),
   by decide,
   (C9_theorem taxGo "  " "backend" (simConst 0) (35 / 100) (by decide)).2 (by decide)⟩

/-! ## Claim C10 -/

/-- An exact multiple of `1/100` — the lexical importance values are such,
so `round(·, 2)` is the identity on them. -/
def IsCent (q : ℚ) : Prop := ∃ z : ℤ, q = z / 100

theorem isCent_min1 {q : ℚ} (h : IsCent q) : IsCent (min 1 q) := by
  rcases h with ⟨z, rfl⟩
  rcases le_total 1 ((z : ℚ) / 100) with h1 | h1
  · rw [min_eq_left h1]; exact ⟨100, by norm_num⟩
  · rw [min_eq_right h1]; exact ⟨z, rfl⟩

theorem isCent_add {p q : ℚ} (hp : IsCent p) (hq : IsCent q) : IsCent (p + q) := by
  rcases hp with ⟨y, rfl⟩; rcases hq with ⟨z, rfl⟩
  exact ⟨y + z, by push_cast; ring⟩

theorem isCent_base (n : ℕ) : IsCent (0.25 + 0.12 * (n : ℚ)) := by
  refine ⟨25 + 12 * (n : ℤ), ?_⟩
  push_cast
  ring_nf

theorem isCent_quarter : IsCent (0.25 : ℚ) := ⟨25, by norm_num⟩

theorem isCent_tenth : IsCent (0.1 : ℚ) := ⟨10, by norm_num⟩

/-- Every lexical importance value is an exact multiple of `1/100`. -/
theorem api_importance_isCent (tax : List Skill) (job sid : String) :
    IsCent (Api.importance_score tax job sid) := by
  rcases hL : lookupSkill tax sid with _ | meta
  · simp only [Api.importance_score, hL]; exact ⟨0, by norm_num⟩
  · simp only [Api.importance_score, hL]
    have hbase : IsCent (min 1 (0.25 + 0.12 * (((meta.aliases.map fun a =>
        Api.countHits (Api.normalizeL a.data) (Api.normalizeL job.data)).sum : ℕ) : ℚ))) :=
      isCent_min1 (isCent_base _)
    split
    · split
      · exact isCent_min1 (isCent_add (isCent_min1 (isCent_add hbase isCent_quarter))
          isCent_tenth)
      · exact isCent_min1 (isCent_add hbase isCent_tenth)
    · split
      · exact isCent_min1 (isCent_add hbase isCent_quarter)
      · exact hbase

/-- `round2` is the identity on exact multiples of `1/100`. -/
theorem round2_isCent {q : ℚ} (h : IsCent q) : round2 q = q := by
  rcases h with ⟨z, rfl⟩
  unfold round2
  rw [show (z : ℚ) / 100 * 100 + 1 / 2 = 1 / 2 + (z : ℚ) from by
    field_simp; ring]
  rw [show (1 : ℚ) / 2 + (z : ℚ) = 1 / 2 + (z : ℤ) from by norm_cast]
  rw [Int.floor_add_int]
  rw [show ⌊(1 : ℚ) / 2⌋ = 0 from by norm_num [Int.floor_eq_zero_iff]]
  push_cast
  ring

/-- **C10, counterexample.**  In the semantic variant, two missing skills
with computed importances `0.723` (id `z`) and `0.721` (id `a`) are ranked
`z` before `a`, yet both *reported* importances round to `0.72`: the
missing list has two entries with equal importance in *descending* id
order, contradicting the claim read on the returned list. -/
theorem C10_counterexample :
    (Ml.analyze taxAZ simAZ (35 / 100) "Nothing here at all." "Alpha Zulu work."
        "backend").missing.map (fun e => (e.skill_id, e.importance)) =
      [("z", 72 / 100), ("a", 72 / 100)] ∧
    ("a" : String) < "z" := by
  constructor
  · with_unfolding_all decide
  · with_unfolding_all decide

/-- **C10, amended.**  In both variants the ranked `(sid, importance)` list
is lexicographically ordered: importance strictly descending, and ids
ascending among *equal computed* importances (the missing ids are
pre-sorted ascending and the insertion sort is stable).  In the lexical
variant, whose importances are exact hundredths (so rounding is the
identity), the property extends to the reported rounded importances of the
returned missing list; in the semantic variant it can fail for the rounded
values, as the counterexample shows. -/
theorem C10_theorem (tax : List Skill) (resume job role : String)
    (sim : String → String → ℚ) (thr : ℚ) :
    (Api.rankedMissing tax resume job role).Pairwise rankLex ∧
    (Ml.rankedMissing tax sim thr resume job role).Pairwise rankLex ∧
    (Api.analyze tax resume job role).missing.Pairwise
      (fun a b => a.importance = b.importance → a.skill_id < b.skill_id) := by
  have hin : ∀ (jk rk : List String), jk.Nodup → ∀ f : String → ℚ,
      ((missingIdsOf rk jk).map fun sid => (sid, f sid)).Pairwise
        fun p q => p.1 < q.1 := by
    intro jk rk hjk f
    exact (missingIdsOf_pairwise_lt hjk).map _ fun a b hab => hab
  have hapi : (Api.rankedMissing tax resume job role).Pairwise rankLex :=
    sortRankedDesc_rankLex _
      (hin _ _ (api_keys_nodup tax job role) fun sid => Api.importance_score tax job sid)
  refine ⟨hapi, ?_, ?_⟩
  · exact sortRankedDesc_rankLex _
      (hin _ _ (ml_keys_nodup tax sim thr job role) _)
  · rw [api_analyze_def, gapAnalyze_missing_eq]
    have hcent : ∀ p ∈ sortRankedDesc
        ((missingIdsOf ((Api.extract_skills tax resume role).map Prod.fst)
          ((Api.extract_skills tax job role).map Prod.fst)).map fun sid =>
            (sid, Api.importance_score tax job sid)), IsCent p.2 := by
      intro p hp
      rcases List.mem_map.mp (mem_sortRankedDesc.mp hp) with ⟨sid, _, rfl⟩
      exact api_importance_isCent tax job sid
    have hlex : (sortRankedDesc
        ((missingIdsOf ((Api.extract_skills tax resume role).map Prod.fst)
          ((Api.extract_skills tax job role).map Prod.fst)).map fun sid =>
            (sid, Api.importance_score tax job sid))).Pairwise
        fun p q => round2 p.2 = round2 q.2 → p.1 < q.1 := by
      refine List.Pairwise.imp_of_mem ?_ hapi
      intro p q hp hq hpq hround
      rw [round2_isCent (hcent p hp), round2_isCent (hcent q hq)] at hround
      rcases hpq with hlt | ⟨heq, hid⟩
      · exact absurd hround.symm (ne_of_lt hlt)
      · exact hid
    exact hlex.map _ fun p q h => h

end CVAnalyser
